import Mathlib

/-!
Verification of the Diffy change-detection and archival design.

The repository ships the React presentation layer (`src/App.tsx`) and a README
describing `monitor.py` (the normalizer, change classifier, archive store and
coordinator).  `monitor.py` itself is not among the sources, so those
components are modelled from the specification; the frontend definitions are
translated directly from `src/App.tsx`.
-/

namespace Diffy

/-! ### Normalizer (spec §4.1) -/

/-- Whitespace test used for word splitting: space, tab, carriage return or
newline, matching the characters collapsed by the normalizer. -/
def wsP : Char → Bool := fun c => c.isWhitespace

/-- Maximal whitespace-free runs of a character list, in order. -/
def wordsOf (l : List Char) : List (List Char) :=
  (l.splitOnP wsP).filter (fun w => !w.isEmpty)

/-- Modelled from the spec: `monitor.py`'s `normalize` is absent from the
sources.  Per §4.1 it lowercases all characters, collapses every whitespace
run (including newlines) to a single space and drops resulting blank lines,
i.e. it joins the words of the lowercased text with single spaces. -/
def normalizeChars (l : List Char) : List Char :=
  List.intercalate [' '] (wordsOf (l.map Char.toLower))

/-- Modelled from the spec: string-level normalizer (§4.1). -/
def normalize (s : String) : String :=
  ⟨normalizeChars s.data⟩

/-! ### ChangeClassifier (spec §4.4) -/

/-- Classifier thresholds, carried as an explicit configuration value
(spec §4.4 and §9). -/
structure ClassifierConfig where
  similarityThreshold : Rat
  percentChangeThreshold : Rat
deriving DecidableEq

/-- Default thresholds: `SIMILARITY_THRESHOLD = 0.97`,
`PERCENT_CHANGE_THRESHOLD = 0.02`. -/
def defaultConfig : ClassifierConfig := ⟨97 / 100, 2 / 100⟩

/-- Result of classification (spec §3): substantive flag, optional reason
template, similarity score used (if any), size-delta fraction (if that check
fired). -/
structure ChangeVerdict where
  substantive : Bool
  reason : Option String
  similarity : Option Rat
  sizeDelta : Option Rat
deriving DecidableEq

/-- Size-delta fraction of spec §4.4 step 3:
`abs (len newNorm - len oldNorm) / max (len oldNorm) 1`. -/
def sizeDeltaOf (oldN newN : String) : Rat :=
  (((newN.length : Int) - (oldN.length : Int)).natAbs : Rat) /
    ((max oldN.length 1 : Nat) : Rat)

/-- Modelled from the spec: render `delta * 100` with one decimal digit, as in
the reason template `"document changed by {delta*100 formatted to 1 decimal}%"`. -/
def formatDeltaPercent (d : Rat) : String :=
  let tenths := (round (d * 1000) : Int).toNat
  toString (tenths / 10) ++ "." ++ toString (tenths % 10)

/-- Modelled from the spec: `ChangeClassifier.classify` from `monitor.py` is
absent from the sources.  Per §4.4 it normalizes both texts and then evaluates,
in strict order with short-circuit, the hot-section check, the size-delta
check and the overall-similarity check.  The hot-section matcher and the
similarity scorer are external capabilities, passed as functions. -/
def classify (cfg : ClassifierConfig)
    (hotSection : String → String → Option (String × Rat))
    (score : String → String → Rat)
    (oldRaw newRaw : String) : ChangeVerdict :=
  let oldN := normalize oldRaw
  let newN := normalize newRaw
  match hotSection oldN newN with
  | some (cat, s) =>
    ⟨true, some ("change detected in hot section: " ++ cat), some s, none⟩
  | none =>
    let delta := sizeDeltaOf oldN newN
    if delta > cfg.percentChangeThreshold then
      ⟨true, some ("document changed by " ++ formatDeltaPercent delta ++ "%"),
        none, some delta⟩
    else
      let sc := score oldN newN
      if sc < cfg.similarityThreshold then
        ⟨true, some "semantic meaning changed", some sc, none⟩
      else
        ⟨false, none, some sc, none⟩

/-! ### ArchiveStore (spec §4.5) -/

/-- Modelled from the spec: an archived snapshot (§3) — owning source slug,
capture date (abstract day number), intra-day sequence index (0 = no filename
suffix, k = suffix `_k`) and raw content. -/
structure Snapshot where
  slug : String
  date : Nat
  seq : Nat
  content : String
deriving DecidableEq

/-- The archive: snapshots in the order they were written. -/
abbrev Archive := List Snapshot

/-- Modelled from the spec: the most recent snapshot of a source, i.e. the
maximum under the total order (capture date, sequence index) (§3). -/
def mostRecent : Archive → String → Option Snapshot
  | [], _ => none
  | s :: rest, slug =>
    if s.slug = slug then
      match mostRecent rest slug with
      | none => some s
      | some best =>
        if best.date < s.date ∨ (best.date = s.date ∧ best.seq < s.seq) then some s
        else some best
    else mostRecent rest slug

/-- Largest sequence index already used for a source on a given date, if any. -/
def maxSeqFor : Archive → String → Nat → Option Nat
  | [], _, _ => none
  | s :: rest, slug, date =>
    if s.slug = slug ∧ s.date = date then
      match maxSeqFor rest slug date with
      | none => some s.seq
      | some m => some (max m s.seq)
    else maxSeqFor rest slug date

/-- Sequence index for a new snapshot on a date: 0 when the date is unused,
otherwise one past the largest used index (spec §4.5). -/
def nextSeq (ar : Archive) (slug : String) (date : Nat) : Nat :=
  match maxSeqFor ar slug date with
  | none => 0
  | some m => m + 1

/-- Modelled from the spec: `archive_tos_if_changed` from `monitor.py` is
absent from the sources.  Per §4.5 it compares the raw bytes against the most
recent snapshot and appends a new snapshot exactly when they differ or no
prior snapshot exists, returning whether a snapshot was written. -/
def archiveIfChanged (ar : Archive) (slug raw : String) (date : Nat) :
    Archive × Bool :=
  match mostRecent ar slug with
  | none => (ar ++ [⟨slug, date, nextSeq ar slug date, raw⟩], true)
  | some snap =>
    if snap.content = raw then (ar, false)
    else (ar ++ [⟨slug, date, nextSeq ar slug date, raw⟩], true)

/-! ### Coordinator (spec §4.6) -/

/-- Per-source persisted status (spec §3). -/
structure ResultRecord where
  slug : String
  changed : Bool
  changeReason : Option String
  summary : String
deriving DecidableEq

/-- External collaborators and configuration of one pipeline run: classifier
configuration, hot-section matcher, similarity scorer, and the two
summarization entry points (spec §6). -/
structure PipelineEnv where
  cfg : ClassifierConfig
  hotSection : String → String → Option (String × Rat)
  score : String → String → Rat
  summarizeOverview : String → String
  summarizeDiff : String → String → String → String

/-- One monitored source's input for a run: its slug and the fetched raw
text. -/
structure SourceInput where
  slug : String
  raw : String
deriving DecidableEq

/-- Outcome of processing one source: the archive afterwards, the produced
record, and how many times the classifier and the summarization collaborator
were invoked. -/
structure StepOutcome where
  archive : Archive
  record : ResultRecord
  classifierCalls : Nat
  summarizerCalls : Nat
deriving DecidableEq

/-- Modelled from the spec: the per-source coordinator of §4.6.  It calls
`archiveIfChanged` first; when no snapshot was written it reuses the prior
summary and invokes neither the classifier nor the summarizer; otherwise it
classifies against the previous snapshot (or requests an overview summary when
none exists) and summarizes only substantive changes. -/
def runSource (env : PipelineEnv) (priorSummary : Option String)
    (ar : Archive) (src : SourceInput) (date : Nat) : StepOutcome :=
  let prev := mostRecent ar src.slug
  let res := archiveIfChanged ar src.slug src.raw date
  if res.2 = false then
    ⟨res.1, ⟨src.slug, false, none, priorSummary.getD "No summary available"⟩, 0, 0⟩
  else
    match prev with
    | none =>
      ⟨res.1, ⟨src.slug, true, none, env.summarizeOverview src.raw⟩, 0, 1⟩
    | some prevSnap =>
      let v := classify env.cfg env.hotSection env.score prevSnap.content src.raw
      if v.substantive then
        ⟨res.1, ⟨src.slug, true, v.reason,
          env.summarizeDiff prevSnap.content src.raw (v.reason.getD "")⟩, 1, 1⟩
      else
        ⟨res.1, ⟨src.slug, false, none, priorSummary.getD "No summary available"⟩, 1, 0⟩

/-- Outcome of a full pipeline run over all configured sources. -/
structure RunOutcome where
  archive : Archive
  records : List ResultRecord
  classifierCalls : Nat
  summarizerCalls : Nat

/-- Modelled from the spec: one full run processes every source in order,
threading the archive (spec §4.6); invocation counts are totalled. -/
def runPipeline (env : PipelineEnv) (sums : String → Option String)
    (ar : Archive) (srcs : List SourceInput) (date : Nat) : RunOutcome :=
  match srcs with
  | [] => ⟨ar, [], 0, 0⟩
  | s :: rest =>
    let o := runSource env (sums s.slug) ar s date
    let r := runPipeline env sums o.archive rest date
    ⟨r.archive, o.record :: r.records, o.classifierCalls + r.classifierCalls,
      o.summarizerCalls + r.summarizerCalls⟩

/-- A sequence of full runs, each with its source inputs and capture date;
returns the final archive. -/
def applyRuns (env : PipelineEnv) (sums : String → Option String)
    (ar : Archive) : List (List SourceInput × Nat) → Archive
  | [] => ar
  | (srcs, date) :: rest =>
    applyRuns env sums (runPipeline env sums ar srcs date).archive rest

/-! ### Frontend (src/App.tsx) -/

/-- The `CompanyResult` interface of `src/App.tsx`: one parsed per-company
record of `data/results.json`.  Optional fields are `Option`s. -/
structure CompanyResult where
  name : String
  category : Option String
  tosUrl : String
  lastChecked : Option String
  changed : Option Bool
  summary : Option String
deriving DecidableEq

/-- The `Results` interface of `src/App.tsx`. -/
structure Results where
  updatedAt : Option String
  companies : List CompanyResult
deriving DecidableEq

/-- Field names declared by the `CompanyResult` interface in `src/App.tsx`. -/
def companyResultFields : List String :=
  ["name", "category", "tosUrl", "lastChecked", "changed", "summary"]

/-- Modelled from the spec: field names of a per-company record of the results
document per §6 (`monitor.py`, the producer, is absent from the sources). -/
def resultsDocCompanyFields : List String :=
  ["name", "category", "tosUrl", "lastChecked", "changed", "changeReason", "summary"]

/-- `RESULTS_URL` from `src/App.tsx`. -/
def RESULTS_URL : String :=
  "https://raw.githubusercontent.com/bradyudovich/Diffy/main/data/results.json"

/-- Decimal digit character, as produced when a number is interpolated into a
JS template literal. -/
def decDigitChar (n : Nat) : Char := Char.ofNat (48 + n)

/-- Decimal rendering of a natural number (most significant digit first),
modelling the interpolation of `Date.now()` into the fetch URL. -/
def natToDecChars (n : Nat) : List Char :=
  if n < 10 then [decDigitChar n]
  else natToDecChars (n / 10) ++ [decDigitChar (n % 10)]
decreasing_by exact Nat.div_lt_self (by omega) (by omega)

/-- String form of the decimal rendering. -/
def natToDecString (n : Nat) : String := ⟨natToDecChars n⟩

/-- The URL fetched by `App`'s load effect at timestamp `t`:
`RESULTS_URL` extended with the cache-busting query parameter. -/
def resultsUrlAt (t : Nat) : String := RESULTS_URL ++ "?t=" ++ natToDecString t

/-- The fetches issued by one mount of `App` (the effect has an empty
dependency array and issues a single `fetch`). -/
def loadRequests (now : Nat) : List String := [resultsUrlAt now]

/-- Decimal value of a digit string, used to invert `natToDecChars`. -/
def decValue (l : List Char) : Nat :=
  l.foldl (fun acc c => acc * 10 + (c.toNat - 48)) 0

/-- JS `String.prototype.toLowerCase`, modelled on basic latin letters. -/
def lowerString (s : String) : String := ⟨s.data.map Char.toLower⟩

/-- JS `String.prototype.includes` on character lists: does `needle` occur
contiguously inside `hay`? -/
def containsSub (hay needle : List Char) : Bool :=
  match hay with
  | [] => needle.isEmpty
  | _ :: t => needle.isPrefixOf hay || containsSub t needle

/-- JS `String.prototype.includes`. -/
def jsIncludes (hay needle : String) : Bool := containsSub hay.data needle.data

/-- JS falsiness of a nullable string: `null` and `""` are falsy. -/
def jsStrFalsy : Option String → Bool
  | none => true
  | some s => s == ""

/-- The category conjunct of the `visibleCompanies` filter in `src/App.tsx`:
`!activeCategory || c.category === activeCategory`. -/
def matchesCategory (c : CompanyResult) (active : Option String) : Bool :=
  jsStrFalsy active || c.category == active

/-- The search conjunct of the `visibleCompanies` filter in `src/App.tsx`:
`!searchQuery || name.toLowerCase().includes(q) || (category ?? "").toLowerCase().includes(q)`
with `q = searchQuery.toLowerCase()`. -/
def matchesSearch (c : CompanyResult) (query : String) : Bool :=
  query == "" || jsIncludes (lowerString c.name) (lowerString query) ||
    jsIncludes (lowerString (c.category.getD "")) (lowerString query)

/-- `visibleCompanies` from `src/App.tsx`: the companies of the results
document filtered by the active category and the search query (empty when no
results are loaded). -/
def visibleCompanies (results : Option Results) (active : Option String)
    (query : String) : List CompanyResult :=
  match results with
  | none => []
  | some r => r.companies.filter (fun c => matchesCategory c active && matchesSearch c query)

/-- The claim's filter condition, in the claim's own words: the category
equals the active category (or no category filter is active), and the name or
category contains the search query case-insensitively (or the query is
empty). -/
def claimMatches (c : CompanyResult) (active : Option String) (query : String) : Bool :=
  (active.isNone || c.category == active) &&
    (query == "" || jsIncludes (lowerString c.name) (lowerString query) ||
      jsIncludes (lowerString (c.category.getD "")) (lowerString query))

/-- Outcome of the results fetch in `App`'s load effect: a network-level
failure rejects the promise; otherwise a response carries `res.ok`, the HTTP
status, and the result of JSON parsing. -/
inductive FetchOutcome where
  | netError (msg : String)
  | response (ok : Bool) (status : Nat) (body : Except String Results)

/-- The three `useState` cells of `App` that the load effect writes. -/
structure LoadState where
  results : Option Results
  error : Option String
  loading : Bool
deriving DecidableEq

/-- State before the fetch settles: `results = null`, `error = null`,
`loading = true`. -/
def initialLoadState : LoadState := ⟨none, none, true⟩

/-- The promise chain of `App`'s load effect (`src/App.tsx` lines 53-68):
non-OK status throws `HTTP {status}`, a parse failure rejects, and every
rejection lands in `.catch` which records the message; every path ends with
`setLoading(false)`. -/
def applyLoad : FetchOutcome → LoadState
  | .netError msg => ⟨none, some msg, false⟩
  | .response ok status body =>
    if ok then
      match body with
      | .ok data => ⟨some data, none, false⟩
      | .error msg => ⟨none, some msg, false⟩
    else ⟨none, some ("HTTP " ++ natToDecString status), false⟩

/-- Did the fetch succeed end-to-end (OK status and parsed body)? -/
def fetchSucceeded : FetchOutcome → Bool
  | .response true _ (.ok _) => true
  | _ => false

/-- Render guard of the error panel: `{error && (...)}`. -/
def showsErrorPanel (st : LoadState) : Bool := st.error.isSome

/-- Render guard of the results block: `{results && (...)}`. -/
def showsResultsList (st : LoadState) : Bool := st.results.isSome

/-- `HUNTER_LOGO_BASE` from `src/App.tsx`. -/
def HUNTER_LOGO_BASE : String := "https://hunter.io/api/logo?domain="

/-- `hostname.replace(/^www\./, "")`: strip one leading `"www."`. -/
def stripWwwDot (h : String) : String :=
  if h.startsWith "www." then h.drop 4 else h

/-- `getLogoUrl` from `src/App.tsx`, parameterized by the browser's URL
parser (`new URL`), which yields the hostname or throws. -/
def getLogoUrl (parseHostname : String → Option String) (tosUrl : String) : String :=
  match parseHostname tosUrl with
  | some hostname => HUNTER_LOGO_BASE ++ stripWwwDot hostname
  | none => ""

/-- Render guard of the logo `<img>`: `{getLogoUrl(company.tosUrl) && (<img ...>)}`,
true exactly when the returned string is truthy (non-empty). -/
def logoImgRendered (parseHostname : String → Option String) (tosUrl : String) : Bool :=
  !(getLogoUrl parseHostname tosUrl == "")

/-! ### Concrete instances used by witnesses -/

/-- A hot-section oracle that always reports the arbitration category. -/
def hotW : String → String → Option (String × Rat) := fun _ _ => some ("arbitration", 1 / 2)

/-- A similarity scorer that always reports identical meaning. -/
def scoreW : String → String → Rat := fun _ _ => 1

/-- A pipeline environment with trivial collaborators. -/
def envW : PipelineEnv :=
  ⟨defaultConfig, fun _ _ => none, fun _ _ => 1, fun _ => "overview", fun _ _ _ => "diff"⟩

/-- A prior-summary store with no entries. -/
def sumsW : String → Option String := fun _ => none

/-- A one-snapshot archive. -/
def arW : Archive := [⟨"acme", 1, 0, "tos text"⟩]

/-- A source whose fetched raw text is byte-identical to its archived
snapshot. -/
def srcsW : List SourceInput := [⟨"acme", "tos text"⟩]

/-- An archive with two same-date snapshots of one source. -/
def arSeqW : Archive := [⟨"acme", 5, 0, "v1"⟩, ⟨"acme", 5, 1, "v2"⟩]

/-- A company record used by the frontend witnesses. -/
def acmeCompany : CompanyResult :=
  ⟨"Acme", some "Tech", "https://acme.example/terms", none, some true, none⟩

/-- A second company record with no category. -/
def betaCompany : CompanyResult :=
  ⟨"Beta", none, "https://beta.example/tos", none, some false, none⟩

/-- A concrete results document. -/
def resultsW : Results := ⟨some "2026-01-01T00:00:00Z", [acmeCompany, betaCompany]⟩

/-- A URL parser that always throws. -/
def parseNoneFn : String → Option String := fun _ => none

/-- A URL parser that always yields a `www.`-prefixed hostname. -/
def parseSomeFn : String → Option String := fun _ => some "www.acme.example"

theorem toNat_ofNat_valid (n : Nat) (h : n.isValidChar) : (Char.ofNat n).toNat = n := by
  simp [Char.ofNat, dif_pos h, Char.ofNatAux, Char.toNat, UInt32.toNat,
    BitVec.toNat_ofNatLt]

theorem toLower_toLower (c : Char) : c.toLower.toLower = c.toLower := by
  simp only [Char.toLower]
  by_cases h : c.toNat ≥ 65 ∧ c.toNat ≤ 90
  · simp only [if_pos h]
    have hv : Nat.isValidChar (c.toNat + 32) := Or.inl (by omega)
    rw [toNat_ofNat_valid _ hv, if_neg (by omega)]
  · simp only [if_neg h]

theorem map_id_of_mem {α : Type} (f : α → α) (l : List α) (h : ∀ c ∈ l, f c = c) :
    l.map f = l := by
  induction l with
  | nil => rfl
  | cons c t ih =>
    simp only [List.map_cons]
    rw [h c (List.mem_cons_self c t), ih (fun x hx => h x (List.mem_cons_of_mem _ hx))]

theorem splitOnP_mem_prop {α : Type} (p : α → Bool) (l : List α) :
    ∀ w ∈ l.splitOnP p, ∀ c ∈ w, c ∈ l ∧ p c = false := by
  induction l with
  | nil =>
    intro w hw c hc
    rw [List.splitOnP_nil] at hw
    simp only [List.mem_singleton] at hw
    subst hw
    simp at hc
  | cons a t ih =>
    intro w hw c hc
    rw [List.splitOnP_cons] at hw
    by_cases h : p a
    · rw [if_pos h] at hw
      rcases List.mem_cons.mp hw with h1 | h1
      · subst h1; simp at hc
      · have := ih w h1 c hc
        exact ⟨List.mem_cons_of_mem _ this.1, this.2⟩
    · rw [if_neg h] at hw
      obtain ⟨hd, tl, heq⟩ : ∃ hd tl, t.splitOnP p = hd :: tl := by
        cases heq : t.splitOnP p with
        | nil => exact absurd heq (List.splitOnP_ne_nil _ _)
        | cons hd tl => exact ⟨hd, tl, rfl⟩
      rw [heq] at hw
      simp only [List.modifyHead] at hw
      have hhd : hd ∈ t.splitOnP p := by rw [heq]; exact List.mem_cons_self hd tl
      rcases List.mem_cons.mp hw with h1 | h1
      · subst h1
        rcases List.mem_cons.mp hc with h2 | h2
        · subst h2
          exact ⟨List.mem_cons_self _ _, Bool.eq_false_iff.mpr h⟩
        · have := ih hd hhd c h2
          exact ⟨List.mem_cons_of_mem _ this.1, this.2⟩
      · have hwent : w ∈ t.splitOnP p := by
          rw [heq]; exact List.mem_cons_of_mem hd h1
        have := ih w hwent c hc
        exact ⟨List.mem_cons_of_mem _ this.1, this.2⟩

theorem intercalate_one {α : Type} (sep : α) (w : List α) :
    List.intercalate [sep] [w] = w := by
  simp [List.intercalate]

theorem intercalate_pair {α : Type} (sep : α) (w w2 : List α) (W : List (List α)) :
    List.intercalate [sep] (w :: w2 :: W) =
      w ++ sep :: List.intercalate [sep] (w2 :: W) := by
  simp [List.intercalate]

theorem mem_intercalate_single {α : Type} (sep : α) :
    ∀ (W : List (List α)) (c : α), c ∈ List.intercalate [sep] W →
      c = sep ∨ ∃ w ∈ W, c ∈ w := by
  intro W
  induction W with
  | nil => intro c hc; simp [List.intercalate] at hc
  | cons w W ih =>
    intro c hc
    cases W with
    | nil =>
      rw [intercalate_one] at hc
      exact Or.inr ⟨w, List.mem_cons_self _ _, hc⟩
    | cons w2 W2 =>
      rw [intercalate_pair] at hc
      rcases List.mem_append.mp hc with h1 | h1
      · exact Or.inr ⟨w, List.mem_cons_self _ _, h1⟩
      · rcases List.mem_cons.mp h1 with h2 | h2
        · exact Or.inl h2
        · rcases ih c h2 with h3 | ⟨u, hu, hcu⟩
          · exact Or.inl h3
          · exact Or.inr ⟨u, List.mem_cons_of_mem _ hu, hcu⟩

theorem splitOnP_intercalate_filter {α : Type} (p : α → Bool) (sep : α)
    (hsep : p sep = true) :
    ∀ (W : List (List α)), (∀ w ∈ W, w ≠ [] ∧ ∀ c ∈ w, p c = false) →
      ((List.intercalate [sep] W).splitOnP p).filter (fun w => !w.isEmpty) = W := by
  intro W
  induction W with
  | nil => intro _; simp [List.intercalate]
  | cons w W ih =>
    intro h
    have h1 := h w (List.mem_cons_self _ _)
    have hnp : ∀ x ∈ w, ¬ p x = true := fun x hx => by simp [h1.2 x hx]
    have hne : (!w.isEmpty) = true := by
      cases w with
      | nil => exact absurd rfl h1.1
      | cons _ _ => rfl
    cases W with
    | nil =>
      rw [intercalate_one, List.splitOnP_eq_single _ _ hnp]
      simp [List.filter, hne]
    | cons w2 W2 =>
      have hrest : ∀ u ∈ w2 :: W2, u ≠ [] ∧ ∀ c ∈ u, p c = false :=
        fun u hu => h u (List.mem_cons_of_mem _ hu)
      rw [intercalate_pair, List.splitOnP_first _ _ hnp sep hsep, List.filter_cons,
        if_pos hne, ih hrest]

theorem toLower_fixed_normalizeChars (l : List Char) :
    ∀ c ∈ normalizeChars l, Char.toLower c = c := by
  intro c hc
  rcases mem_intercalate_single ' ' _ c hc with h | ⟨w, hw, hcw⟩
  · subst h; rfl
  · have hw2 : w ∈ (l.map Char.toLower).splitOnP wsP := (List.mem_filter.mp hw).1
    have hcl : c ∈ l.map Char.toLower := (splitOnP_mem_prop wsP _ w hw2 c hcw).1
    obtain ⟨d, _, rfl⟩ := List.mem_map.mp hcl
    exact toLower_toLower d

theorem normalizeChars_idem (l : List Char) :
    normalizeChars (normalizeChars l) = normalizeChars l := by
  have hmap : (normalizeChars l).map Char.toLower = normalizeChars l :=
    map_id_of_mem _ _ (toLower_fixed_normalizeChars l)
  have hwords : wordsOf (normalizeChars l) = wordsOf (l.map Char.toLower) := by
    have hcond : ∀ w ∈ wordsOf (l.map Char.toLower),
        w ≠ [] ∧ ∀ c ∈ w, wsP c = false := by
      intro w hw
      have hw1 : (!w.isEmpty) = true := (List.mem_filter.mp hw).2
      have hw2 : w ∈ (l.map Char.toLower).splitOnP wsP := (List.mem_filter.mp hw).1
      constructor
      · intro hnil; subst hnil; simp at hw1
      · exact fun c hc => (splitOnP_mem_prop wsP _ w hw2 c hc).2
    exact splitOnP_intercalate_filter wsP ' ' rfl _ hcond
  show List.intercalate [' '] (wordsOf ((normalizeChars l).map Char.toLower)) =
    normalizeChars l
  rw [hmap, hwords]
  rfl

theorem normalize_idem (s : String) : normalize (normalize s) = normalize s :=
  congrArg String.mk (normalizeChars_idem s.data)

/-- C5: `normalize` is a pure total function (a Lean `def`), it is idempotent,
and it identifies texts differing only in case and whitespace, as in the
spec's example `normalize "Foo   Bar\n\n" = normalize "foo bar"`. -/
theorem normalize_contract :
    (∀ x : String, normalize (normalize x) = normalize x) ∧
      normalize "Foo   Bar\n\n" = normalize "foo bar" :=
  ⟨normalize_idem, by decide⟩

theorem mostRecent_none_spec (slug : String) :
    ∀ ar : Archive, mostRecent ar slug = none → ∀ s ∈ ar, s.slug ≠ slug := by
  intro ar
  induction ar with
  | nil => intro _ s hs; simp at hs
  | cons a rest ih =>
    intro h s hs
    simp only [mostRecent] at h
    by_cases ha : a.slug = slug
    · rw [if_pos ha] at h
      cases hr : mostRecent rest slug with
      | none => rw [hr] at h; simp at h
      | some best =>
        rw [hr] at h
        simp only at h
        split at h <;> simp at h
    · rw [if_neg ha] at h
      rcases List.mem_cons.mp hs with h1 | h1
      · subst h1; exact ha
      · exact ih h s h1

theorem mostRecent_some_spec (slug : String) :
    ∀ (ar : Archive) (snap : Snapshot), mostRecent ar slug = some snap →
      snap ∈ ar ∧ snap.slug = slug ∧
        ∀ s ∈ ar, s.slug = slug →
          s.date < snap.date ∨ (s.date = snap.date ∧ s.seq ≤ snap.seq) := by
  intro ar
  induction ar with
  | nil => intro snap h; simp [mostRecent] at h
  | cons a rest ih =>
    intro snap h
    simp only [mostRecent] at h
    by_cases ha : a.slug = slug
    · rw [if_pos ha] at h
      cases hr : mostRecent rest slug with
      | none =>
        rw [hr] at h
        simp only at h
        injection h with h
        subst h
        refine ⟨List.mem_cons_self _ _, ha, ?_⟩
        intro s hs hslug
        rcases List.mem_cons.mp hs with h1 | h1
        · subst h1; omega
        · exact absurd hslug (mostRecent_none_spec slug rest hr s h1)
      | some best =>
        rw [hr] at h
        simp only at h
        obtain ⟨hbmem, hbslug, hbmax⟩ := ih best hr
        by_cases hlt : best.date < a.date ∨ (best.date = a.date ∧ best.seq < a.seq)
        · rw [if_pos hlt] at h
          injection h with h
          subst h
          refine ⟨List.mem_cons_self _ _, ha, ?_⟩
          intro s hs hslug
          rcases List.mem_cons.mp hs with h1 | h1
          · subst h1; omega
          · have := hbmax s h1 hslug
            omega
        · rw [if_neg hlt] at h
          injection h with h
          subst h
          refine ⟨List.mem_cons_of_mem _ hbmem, hbslug, ?_⟩
          intro s hs hslug
          rcases List.mem_cons.mp hs with h1 | h1
          · subst h1; omega
          · exact hbmax s h1 hslug
    · rw [if_neg ha] at h
      obtain ⟨hm, hsl, hmax⟩ := ih snap h
      refine ⟨List.mem_cons_of_mem _ hm, hsl, ?_⟩
      intro s hsm hslug
      rcases List.mem_cons.mp hsm with h1 | h1
      · subst h1; exact absurd hslug ha
      · exact hmax s h1 hslug

theorem maxSeqFor_none_spec (slug : String) (date : Nat) :
    ∀ ar : Archive, maxSeqFor ar slug date = none →
      ∀ s ∈ ar, ¬(s.slug = slug ∧ s.date = date) := by
  intro ar
  induction ar with
  | nil => intro _ s hs; simp at hs
  | cons a rest ih =>
    intro h s hs
    simp only [maxSeqFor] at h
    by_cases ha : a.slug = slug ∧ a.date = date
    · rw [if_pos ha] at h
      cases hr : maxSeqFor rest slug date with
      | none => rw [hr] at h; simp at h
      | some m => rw [hr] at h; simp at h
    · rw [if_neg ha] at h
      rcases List.mem_cons.mp hs with h1 | h1
      · subst h1; exact ha
      · exact ih h s h1

theorem maxSeqFor_none_of_not (slug : String) (date : Nat) :
    ∀ ar : Archive, (∀ s ∈ ar, ¬(s.slug = slug ∧ s.date = date)) →
      maxSeqFor ar slug date = none := by
  intro ar
  induction ar with
  | nil => intro _; rfl
  | cons a rest ih =>
    intro h
    simp only [maxSeqFor]
    rw [if_neg (h a (List.mem_cons_self _ _))]
    exact ih (fun s hs => h s (List.mem_cons_of_mem _ hs))

theorem maxSeqFor_some_spec (slug : String) (date : Nat) :
    ∀ (ar : Archive) (m : Nat), maxSeqFor ar slug date = some m →
      (∃ s ∈ ar, s.slug = slug ∧ s.date = date ∧ s.seq = m) ∧
        ∀ s ∈ ar, s.slug = slug → s.date = date → s.seq ≤ m := by
  intro ar
  induction ar with
  | nil => intro m h; simp [maxSeqFor] at h
  | cons a rest ih =>
    intro m h
    simp only [maxSeqFor] at h
    by_cases ha : a.slug = slug ∧ a.date = date
    · rw [if_pos ha] at h
      cases hr : maxSeqFor rest slug date with
      | none =>
        rw [hr] at h
        simp only at h
        injection h with h
        subst h
        refine ⟨⟨a, List.mem_cons_self _ _, ha.1, ha.2, rfl⟩, ?_⟩
        intro s hs h1 h2
        rcases List.mem_cons.mp hs with h3 | h3
        · subst h3; omega
        · exact absurd ⟨h1, h2⟩ (maxSeqFor_none_spec slug date rest hr s h3)
      | some m0 =>
        rw [hr] at h
        simp only at h
        injection h with h
        obtain ⟨⟨s0, hs0, g1, g2, g3⟩, hmax⟩ := ih m0 hr
        subst h
        rcases Nat.le_total m0 a.seq with hc | hc
        · refine ⟨⟨a, List.mem_cons_self _ _, ha.1, ha.2, by omega⟩, ?_⟩
          intro s hs h1 h2
          rcases List.mem_cons.mp hs with h3 | h3
          · subst h3; omega
          · have := hmax s h3 h1 h2; omega
        · refine ⟨⟨s0, List.mem_cons_of_mem _ hs0, g1, g2, by omega⟩, ?_⟩
          intro s hs h1 h2
          rcases List.mem_cons.mp hs with h3 | h3
          · subst h3; omega
          · have := hmax s h3 h1 h2; omega
    · rw [if_neg ha] at h
      obtain ⟨⟨s0, hs0, g1, g2, g3⟩, hmax⟩ := ih m h
      refine ⟨⟨s0, List.mem_cons_of_mem _ hs0, g1, g2, g3⟩, ?_⟩
      intro s hs hh1 hh2
      rcases List.mem_cons.mp hs with h4 | h4
      · subst h4; exact absurd ⟨hh1, hh2⟩ ha
      · exact hmax s h4 hh1 hh2

theorem nextSeq_eq_zero_of_not (ar : Archive) (slug : String) (date : Nat)
    (h : ∀ s ∈ ar, ¬(s.slug = slug ∧ s.date = date)) : nextSeq ar slug date = 0 := by
  unfold nextSeq
  rw [maxSeqFor_none_of_not slug date ar h]

theorem nextSeq_gt (ar : Archive) (slug : String) (date : Nat) (s : Snapshot)
    (h1 : s ∈ ar) (h2 : s.slug = slug) (h3 : s.date = date) :
    s.seq < nextSeq ar slug date := by
  unfold nextSeq
  cases hr : maxSeqFor ar slug date with
  | none => exact absurd ⟨h2, h3⟩ (maxSeqFor_none_spec slug date ar hr s h1)
  | some m =>
    simp only
    have := (maxSeqFor_some_spec slug date ar m hr).2 s h1 h2 h3
    omega

theorem nextSeq_succ_of_exists (ar : Archive) (slug : String) (date : Nat)
    (h : ∃ s ∈ ar, s.slug = slug ∧ s.date = date) :
    ∃ s ∈ ar, s.slug = slug ∧ s.date = date ∧ nextSeq ar slug date = s.seq + 1 := by
  obtain ⟨s, hs, h1, h2⟩ := h
  unfold nextSeq
  cases hr : maxSeqFor ar slug date with
  | none => exact absurd ⟨h1, h2⟩ (maxSeqFor_none_spec slug date ar hr s hs)
  | some m =>
    simp only
    obtain ⟨⟨s0, hs0, g1, g2, g3⟩, _⟩ := maxSeqFor_some_spec slug date ar m hr
    exact ⟨s0, hs0, g1, g2, by omega⟩

/-- Claim C4: when a prior snapshot exists and the bytes differ,
`archiveIfChanged` writes a snapshot with sequence index 0 if the capture
date is unused for this source, and otherwise the next unused index (one past
an existing snapshot's largest index, greater than every used index), and
returns true; `mostRecent` returns the maximum under the (capture date,
sequence index) order; with no prior snapshot at all the first snapshot is
always written and true is returned. -/
theorem archiveIfChanged_seq_behavior (ar : Archive) (slug raw : String) (date : Nat) :
    (mostRecent ar slug = none →
      archiveIfChanged ar slug raw date = (ar ++ [⟨slug, date, 0, raw⟩], true))
  ∧ (∀ snap, mostRecent ar slug = some snap → snap.content ≠ raw →
      archiveIfChanged ar slug raw date =
          (ar ++ [⟨slug, date, nextSeq ar slug date, raw⟩], true)
        ∧ ((∀ s ∈ ar, ¬(s.slug = slug ∧ s.date = date)) → nextSeq ar slug date = 0)
        ∧ (∀ s ∈ ar, s.slug = slug → s.date = date → s.seq < nextSeq ar slug date)
        ∧ ((∃ s ∈ ar, s.slug = slug ∧ s.date = date) →
            ∃ s ∈ ar, s.slug = slug ∧ s.date = date ∧
              nextSeq ar slug date = s.seq + 1))
  ∧ (∀ snap, mostRecent ar slug = some snap →
      snap ∈ ar ∧ snap.slug = slug ∧
        ∀ s ∈ ar, s.slug = slug →
          s.date < snap.date ∨ (s.date = snap.date ∧ s.seq ≤ snap.seq)) := by
  refine ⟨?_, ?_, ?_⟩
  · intro h
    have h0 : nextSeq ar slug date = 0 :=
      nextSeq_eq_zero_of_not ar slug date
        (fun s hs hand => mostRecent_none_spec slug ar h s hs hand.1)
    unfold archiveIfChanged
    rw [h]
    simp only
    rw [h0]
  · intro snap hm hne
    refine ⟨?_, nextSeq_eq_zero_of_not ar slug date,
      fun s hs h1 h2 => nextSeq_gt ar slug date s hs h1 h2,
      nextSeq_succ_of_exists ar slug date⟩
    unfold archiveIfChanged
    rw [hm]
    simp only
    rw [if_neg hne]
  · intro snap hm
    exact mostRecent_some_spec slug ar snap hm

theorem archiveIfChanged_seq_witness :
    archiveIfChanged arSeqW "acme" "v3" 5 = (arSeqW ++ [⟨"acme", 5, 2, "v3"⟩], true) := by
  have h := ((archiveIfChanged_seq_behavior arSeqW "acme" "v3" 5).2.1
    ⟨"acme", 5, 1, "v2"⟩ (by decide) (by decide)).1
  rw [h]
  have h2 : nextSeq arSeqW "acme" 5 = 2 := by decide
  rw [h2]

theorem archiveIfChanged_sublist (ar : Archive) (slug raw : String) (date : Nat) :
    List.Sublist ar (archiveIfChanged ar slug raw date).1 := by
  unfold archiveIfChanged
  cases mostRecent ar slug with
  | none => exact List.sublist_append_left _ _
  | some snap =>
    simp only
    by_cases h : snap.content = raw
    · rw [if_pos h]
    · rw [if_neg h]
      exact List.sublist_append_left _ _

theorem runSource_archive_eq (env : PipelineEnv) (ps : Option String)
    (ar : Archive) (src : SourceInput) (date : Nat) :
    (runSource env ps ar src date).archive =
      (archiveIfChanged ar src.slug src.raw date).1 := by
  simp only [runSource]
  split
  · rfl
  · split
    · rfl
    · split <;> rfl

/-- Claim C3: the archive is append-only — `archiveIfChanged`, the per-source
coordinator, a full pipeline run and any sequence of runs each produce an
archive in which every previously written snapshot is still present, in
order, with unchanged content (the old archive is a sublist of the new one);
no operation in the model updates or deletes a snapshot. -/
theorem archive_append_only :
    (∀ (ar : Archive) (slug raw : String) (date : Nat),
        List.Sublist ar (archiveIfChanged ar slug raw date).1)
  ∧ (∀ (env : PipelineEnv) (ps : Option String) (ar : Archive)
        (src : SourceInput) (date : Nat),
        List.Sublist ar (runSource env ps ar src date).archive)
  ∧ (∀ (env : PipelineEnv) (sums : String → Option String) (srcs : List SourceInput)
        (date : Nat) (ar : Archive),
        List.Sublist ar (runPipeline env sums ar srcs date).archive)
  ∧ (∀ (env : PipelineEnv) (sums : String → Option String)
        (runs : List (List SourceInput × Nat)) (ar : Archive),
        List.Sublist ar (applyRuns env sums ar runs)) := by
  have stepSrc : ∀ (env : PipelineEnv) (ps : Option String) (ar : Archive)
      (src : SourceInput) (date : Nat), List.Sublist ar (runSource env ps ar src date).archive := by
    intro env ps ar src date
    rw [runSource_archive_eq]
    exact archiveIfChanged_sublist ar src.slug src.raw date
  have stepRun : ∀ (env : PipelineEnv) (sums : String → Option String)
      (srcs : List SourceInput) (date : Nat) (ar : Archive),
      List.Sublist ar (runPipeline env sums ar srcs date).archive := by
    intro env sums srcs
    induction srcs with
    | nil => intro date ar; exact List.Sublist.refl ar
    | cons s rest ih =>
      intro date ar
      have h1 := stepSrc env (sums s.slug) ar s date
      have h2 := ih date (runSource env (sums s.slug) ar s date).archive
      simp only [runPipeline]
      exact h1.trans h2
  refine ⟨archiveIfChanged_sublist, stepSrc, stepRun, ?_⟩
  intro env sums runs
  induction runs with
  | nil => intro ar; exact List.Sublist.refl ar
  | cons p rest ih =>
    intro ar
    have h1 := stepRun env sums p.1 p.2 ar
    have h2 := ih (runPipeline env sums ar p.1 p.2).archive
    simp only [applyRuns]
    exact h1.trans h2

theorem archiveIfChanged_false_eq (ar : Archive) (slug raw : String) (date : Nat) :
    (archiveIfChanged ar slug raw date).2 = false →
      archiveIfChanged ar slug raw date = (ar, false) := by
  unfold archiveIfChanged
  cases mostRecent ar slug with
  | none => simp
  | some snap =>
    simp only
    by_cases hc : snap.content = raw
    · rw [if_pos hc]; intro; rfl
    · rw [if_neg hc]; simp

theorem archiveIfChanged_of_identical (ar : Archive) (slug raw : String) (date : Nat)
    (snap : Snapshot) (hm : mostRecent ar slug = some snap) (hc : snap.content = raw) :
    archiveIfChanged ar slug raw date = (ar, false) := by
  unfold archiveIfChanged
  rw [hm]
  simp only
  rw [if_pos hc]

/-- Claim C1: the two-tier gate — whenever `archiveIfChanged` returns false
(the raw bytes are byte-identical to the most recent archived snapshot),
`runSource` leaves the archive untouched and invokes neither the classifier
nor the summarization collaborator; consequently a full pipeline run whose
every source fetches bytes identical to its most recent snapshot writes
nothing to the archive and makes zero classifier and zero summarization
calls. -/
theorem two_tier_gate (env : PipelineEnv) (sums : String → Option String)
    (ar : Archive) (date : Nat) :
    (∀ (ps : Option String) (src : SourceInput),
        (archiveIfChanged ar src.slug src.raw date).2 = false →
        runSource env ps ar src date =
          ⟨ar, ⟨src.slug, false, none, ps.getD "No summary available"⟩, 0, 0⟩)
  ∧ (∀ srcs : List SourceInput,
        (∀ src ∈ srcs, ∃ snap, mostRecent ar src.slug = some snap ∧
          snap.content = src.raw) →
        (runPipeline env sums ar srcs date).archive = ar ∧
          (runPipeline env sums ar srcs date).classifierCalls = 0 ∧
          (runPipeline env sums ar srcs date).summarizerCalls = 0) := by
  have part1 : ∀ (ps : Option String) (src : SourceInput),
      (archiveIfChanged ar src.slug src.raw date).2 = false →
      runSource env ps ar src date =
        ⟨ar, ⟨src.slug, false, none, ps.getD "No summary available"⟩, 0, 0⟩ := by
    intro ps src h
    have heq := archiveIfChanged_false_eq ar src.slug src.raw date h
    simp only [runSource, heq]
    exact if_pos trivial
  refine ⟨part1, ?_⟩
  intro srcs
  induction srcs with
  | nil => intro _; exact ⟨rfl, rfl, rfl⟩
  | cons s rest ih =>
    intro h
    obtain ⟨snap, hm, hc⟩ := h s (List.mem_cons_self _ _)
    have hfalse : archiveIfChanged ar s.slug s.raw date = (ar, false) :=
      archiveIfChanged_of_identical ar s.slug s.raw date snap hm hc
    have hsrc : runSource env (sums s.slug) ar s date =
        ⟨ar, ⟨s.slug, false, none, (sums s.slug).getD "No summary available"⟩, 0, 0⟩ :=
      part1 _ s (by rw [hfalse])
    have hrest := ih (fun src hs => h src (List.mem_cons_of_mem _ hs))
    simp only [runPipeline, hsrc]
    exact ⟨hrest.1, by simp [hrest.2.1], by simp [hrest.2.2]⟩

theorem two_tier_gate_witness :
    (runPipeline envW sumsW arW srcsW 2).archive = arW ∧
      (runPipeline envW sumsW arW srcsW 2).classifierCalls = 0 ∧
      (runPipeline envW sumsW arW srcsW 2).summarizerCalls = 0 := by
  refine (two_tier_gate envW sumsW arW 2).2 srcsW ?_
  intro src hs
  have hsrc : src = ⟨"acme", "tos text"⟩ := by simpa [srcsW] using hs
  subst hsrc
  exact ⟨⟨"acme", 1, 0, "tos text"⟩, by decide, rfl⟩

/-- Claim C2: under the precondition that the raw texts differ at the byte
level, `classify` evaluates hot-section, then size-delta, then overall
similarity, short-circuiting on the first trigger: a hot-section trigger
yields the hot-section reason (never a size-delta reason, whatever the
delta), a size delta above the threshold yields the percentage reason with
the delta formatted to one decimal, a similarity score below the threshold
yields the semantic reason, and otherwise the verdict is non-substantive
with no reason; the spec's 3% example formats as "3.0". -/
theorem classify_ordered_checks (cfg : ClassifierConfig)
    (hot : String → String → Option (String × Rat)) (score : String → String → Rat)
    (oldRaw newRaw : String) (hneq : oldRaw ≠ newRaw) :
    (∀ cat s, hot (normalize oldRaw) (normalize newRaw) = some (cat, s) →
      classify cfg hot score oldRaw newRaw =
        ⟨true, some ("change detected in hot section: " ++ cat), some s, none⟩)
  ∧ (hot (normalize oldRaw) (normalize newRaw) = none →
      sizeDeltaOf (normalize oldRaw) (normalize newRaw) > cfg.percentChangeThreshold →
      classify cfg hot score oldRaw newRaw =
        ⟨true,
          some ("document changed by " ++
            formatDeltaPercent (sizeDeltaOf (normalize oldRaw) (normalize newRaw)) ++ "%"),
          none, some (sizeDeltaOf (normalize oldRaw) (normalize newRaw))⟩)
  ∧ (hot (normalize oldRaw) (normalize newRaw) = none →
      ¬ sizeDeltaOf (normalize oldRaw) (normalize newRaw) > cfg.percentChangeThreshold →
      score (normalize oldRaw) (normalize newRaw) < cfg.similarityThreshold →
      classify cfg hot score oldRaw newRaw =
        ⟨true, some "semantic meaning changed",
          some (score (normalize oldRaw) (normalize newRaw)), none⟩)
  ∧ (hot (normalize oldRaw) (normalize newRaw) = none →
      ¬ sizeDeltaOf (normalize oldRaw) (normalize newRaw) > cfg.percentChangeThreshold →
      ¬ score (normalize oldRaw) (normalize newRaw) < cfg.similarityThreshold →
      classify cfg hot score oldRaw newRaw =
        ⟨false, none, some (score (normalize oldRaw) (normalize newRaw)), none⟩)
  ∧ formatDeltaPercent (3 / 100) = "3.0" := by
  refine ⟨?_, ?_, ?_, ?_, ?_⟩
  · intro cat s hhot
    simp [classify, hhot]
  · intro hhot hd
    simp [classify, hhot, hd]
  · intro hhot hd hsc
    simp [classify, hhot, hd, hsc]
  · intro hhot hd hsc
    simp [classify, hhot, hd, hsc]
  · have h30 : round ((3 : ℚ) / 100 * 1000) = 30 := by norm_num [round_eq]
    simp only [formatDeltaPercent, h30]
    rfl

theorem classify_ordered_checks_witness :
    classify defaultConfig hotW scoreW "old text" "new text" =
      ⟨true, some ("change detected in hot section: " ++ "arbitration"),
        some (1 / 2), none⟩ :=
  (classify_ordered_checks defaultConfig hotW scoreW "old text" "new text"
    (by decide)).1 "arbitration" (1 / 2) rfl

/-- Claim C6 counterexample: the results-document schema includes a
`changeReason` field, but the frontend's parsed record type `CompanyResult`
in `src/App.tsx` does not declare it, so not every field of the document
schema is declared by the frontend types. -/
theorem changeReason_not_declared :
    "changeReason" ∈ resultsDocCompanyFields ∧
      "changeReason" ∉ companyResultFields := by
  decide

/-- Claim C6 (amended): the frontend's `CompanyResult` declares every field of
the per-company document schema except `changeReason`, which it does not
declare. -/
theorem frontend_fields_amended :
    (∀ f ∈ resultsDocCompanyFields, f ≠ "changeReason" → f ∈ companyResultFields) ∧
      "changeReason" ∉ companyResultFields := by
  decide

theorem frontend_fields_witness : "summary" ∈ companyResultFields :=
  frontend_fields_amended.1 "summary" (by decide) (by decide)

theorem decDigitChar_toNat (n : Nat) (h : n < 10) : (decDigitChar n).toNat = 48 + n :=
  toNat_ofNat_valid _ (Or.inl (by omega))

theorem decValue_append (l : List Char) (c : Char) :
    decValue (l ++ [c]) = decValue l * 10 + (c.toNat - 48) := by
  unfold decValue
  rw [List.foldl_append]
  rfl

theorem decValue_natToDecChars (n : Nat) : decValue (natToDecChars n) = n := by
  induction n using Nat.strong_induction_on with
  | _ n ih =>
    rw [natToDecChars]
    by_cases h : n < 10
    · rw [if_pos h]
      unfold decValue
      rw [List.foldl_cons, List.foldl_nil, decDigitChar_toNat n h]
      omega
    · rw [if_neg h]
      rw [decValue_append, ih (n / 10) (Nat.div_lt_self (by omega) (by omega)),
        decDigitChar_toNat (n % 10) (Nat.mod_lt _ (by omega))]
      omega

theorem natToDecChars_injective (a b : Nat) (h : natToDecChars a = natToDecChars b) :
    a = b := by
  have h2 := congrArg decValue h
  rwa [decValue_natToDecChars, decValue_natToDecChars] at h2

theorem resultsUrlAt_injective (t1 t2 : Nat) (h : resultsUrlAt t1 = resultsUrlAt t2) :
    t1 = t2 := by
  apply natToDecChars_injective
  have hd : (RESULTS_URL.data ++ "?t=".data) ++ natToDecChars t1 =
      (RESULTS_URL.data ++ "?t=".data) ++ natToDecChars t2 := congrArg String.data h
  exact List.append_inj_right hd rfl

/-- Claim C7: each mount of `App` issues exactly one fetch, whose URL is
`RESULTS_URL` extended with a `t` query parameter carrying the current
timestamp; distinct timestamps produce distinct URLs, so no stale cached
document can be reused across loads at different times. -/
theorem load_cache_busting (now : Nat) :
    loadRequests now = [RESULTS_URL ++ "?t=" ++ natToDecString now]
  ∧ (loadRequests now).length = 1
  ∧ ∀ t1 t2 : Nat, t1 ≠ t2 → resultsUrlAt t1 ≠ resultsUrlAt t2 := by
  refine ⟨rfl, rfl, ?_⟩
  intro t1 t2 hne heq
  exact hne (resultsUrlAt_injective t1 t2 heq)

theorem load_cache_busting_witness : resultsUrlAt 0 ≠ resultsUrlAt 1 :=
  (load_cache_busting 0).2.2 0 1 (by decide)

/-- Claim C8: for every loaded results document, active category filter
(reachable filters are `null` or a nonempty category) and search query, the
rendered list `visibleCompanies` is exactly the original-order subsequence of
`results.companies` whose entries match the claim's category and
case-insensitive search conditions. -/
theorem visibleCompanies_spec (r : Results) (active : Option String) (query : String)
    (hactive : active ≠ some "") :
    visibleCompanies (some r) active query =
        r.companies.filter (fun c => claimMatches c active query)
  ∧ List.Sublist (visibleCompanies (some r) active query) r.companies := by
  constructor
  · show r.companies.filter _ = r.companies.filter _
    apply List.filter_congr
    intro c _
    cases active with
    | none => rfl
    | some a =>
      have ha : (a == "") = false := by
        simp only [beq_eq_false_iff_ne]
        intro h
        exact hactive (by rw [h])
      simp [claimMatches, matchesCategory, matchesSearch, jsStrFalsy, ha]
  · exact List.filter_sublist _

theorem visibleCompanies_witness :
    visibleCompanies (some resultsW) (some "Tech") "" = [acmeCompany] := by
  have h := (visibleCompanies_spec resultsW (some "Tech") "" (by decide)).1
  rw [h]
  decide

/-- Claim C9: the load effect's handling is total and mutually exclusive —
every fetch outcome ends with `loading = false`; a success stores the parsed
results with no error, any failure (network error, non-OK status, parse
failure) stores an error message with `results` still `null`; and exactly one
of the error panel and the results block is rendered. -/
theorem load_error_handling (o : FetchOutcome) :
    (applyLoad o).loading = false
  ∧ (if fetchSucceeded o then
      (applyLoad o).error = none ∧ (applyLoad o).results.isSome = true
    else (applyLoad o).results = none ∧ (applyLoad o).error.isSome = true)
  ∧ showsErrorPanel (applyLoad o) = !showsResultsList (applyLoad o) := by
  cases o with
  | netError msg =>
    exact ⟨rfl, by simp [applyLoad, fetchSucceeded], rfl⟩
  | response ok status body =>
    cases ok <;> cases body <;>
      simp [applyLoad, fetchSucceeded, showsErrorPanel, showsResultsList]

theorem hunterBase_append_ne_empty (s : String) : HUNTER_LOGO_BASE ++ s ≠ "" := by
  intro h
  have h1 : HUNTER_LOGO_BASE.data ++ s.data = [] := congrArg String.data h
  exact absurd (List.append_eq_nil.mp h1).1 (by decide)

/-- Claim C10: `getLogoUrl` is a total function of its input — when the URL
parser fails it returns the empty string, when it parses it returns the
hunter.io logo URL for the hostname with a leading "www." stripped — and the
logo `<img>` is rendered exactly when the returned string is non-empty. -/
theorem getLogoUrl_spec (parseHostname : String → Option String) (tosUrl : String) :
    (parseHostname tosUrl = none →
      getLogoUrl parseHostname tosUrl = "" ∧
        logoImgRendered parseHostname tosUrl = false)
  ∧ (∀ h, parseHostname tosUrl = some h →
      getLogoUrl parseHostname tosUrl = HUNTER_LOGO_BASE ++ stripWwwDot h ∧
        logoImgRendered parseHostname tosUrl = true)
  ∧ (logoImgRendered parseHostname tosUrl = true →
      getLogoUrl parseHostname tosUrl ≠ "") := by
  refine ⟨?_, ?_, ?_⟩
  · intro h
    constructor
    · simp [getLogoUrl, h]
    · simp [logoImgRendered, getLogoUrl, h]
  · intro hn h
    have hurl : getLogoUrl parseHostname tosUrl = HUNTER_LOGO_BASE ++ stripWwwDot hn := by
      simp [getLogoUrl, h]
    refine ⟨hurl, ?_⟩
    simp only [logoImgRendered, hurl, Bool.not_eq_true']
    simp [hunterBase_append_ne_empty (stripWwwDot hn)]
  · intro h heq
    simp [logoImgRendered, heq] at h

theorem getLogoUrl_witness :
    getLogoUrl parseNoneFn "notaurl" = "" ∧
      getLogoUrl parseSomeFn "https://www.acme.example/t" =
        HUNTER_LOGO_BASE ++ stripWwwDot "www.acme.example" :=
  ⟨((getLogoUrl_spec parseNoneFn "notaurl").1 rfl).1,
    ((getLogoUrl_spec parseSomeFn "https://www.acme.example/t").2.1
      "www.acme.example" rfl).1⟩

end Diffy
